import Mathlib

/-!
Verification development for the client-side vector search core of this
repository.  The definitions below are a shallow embedding, in Lean 4, of

* `src/utils.ts`   — `cosineSimilarity`;
* `src/index.ts`   — the `EmbeddingIndex` class (exact VectorIndex) and its
  IndexedDB save path;
* `src/hnsw.ts`    — `getInsertLayer`, `_searchLayer`, and the
  `ExperimentalHNSWIndex` class (ApproximateIndex) with its JSON / binary
  snapshots;
* `doc-generator/src/embedding-generator.ts` — the `EmbeddingGenerator`
  batch pipeline (`generateEmbeddings`, `generateEmbeddingWithRetry`,
  `validateEmbeddings`).

Modelling conventions, used consistently below:

* JavaScript numbers are modelled by `JsNum`: either an exact rational or
  one of the non-finite IEEE values `NaN`, `Infinity`, `-Infinity`.
  Rounding of IEEE doubles is not modelled; arithmetic on finite values is
  exact rational arithmetic.
* `Math.sqrt` has no exact rational counterpart.  Where the code computes
  `sqrt s` (Euclidean distance) the model keeps the radicand `s`, and where
  it computes `dot / (sqrt a * sqrt b)` (cosine) the model keeps the
  order-isomorphic surrogate `dot * |dot| / (a * b)`.  Both surrogates are
  strictly-monotone images of the code's value, so every comparison the
  algorithms perform (sorting, candidate admission, the `=== 0` magnitude
  test) coincides with the code; only the numeric magnitude of reported
  scores differs.  No theorem below depends on the numeric magnitude.
* Thrown JavaScript exceptions are modelled by `Except String`; the string
  is the thrown message.
* JavaScript objects are modelled as association lists (`JsObj`) in
  insertion order; `Object.keys` is the list of first components and
  `key in obj` is membership in that list.
-/

/-- Model of a JavaScript number: an exact rational, or one of the
non-finite IEEE values. -/
inductive JsNum where
  | nan : JsNum
  | inf : JsNum
  | ninf : JsNum
  | rat (q : ℚ) : JsNum
deriving DecidableEq, Repr

namespace JsNum

/-- JavaScript `isNaN` on an already-numeric value. -/
def isNaNb : JsNum → Bool
  | .nan => true
  | _ => false

/-- JavaScript `isFinite` on an already-numeric value. -/
def isFiniteb : JsNum → Bool
  | .rat _ => true
  | _ => false

/-- JavaScript `v === 0` on a numeric value (`NaN === 0` is false). -/
def isZero : JsNum → Bool
  | .rat q => q == 0
  | _ => false

/-- Extract the exact rational of a finite value.  Non-finite values have
no exact counterpart: arithmetic on them is outside the modelled domain. -/
def toRat? : JsNum → Option ℚ
  | .rat q => some q
  | _ => none

end JsNum

/-- Model of the JavaScript values stored in index objects and filters:
numbers, strings, and numeric arrays (embeddings). -/
inductive JsVal where
  | num (n : JsNum) : JsVal
  | str (s : String) : JsVal
  | arrNum (l : List JsNum) : JsVal
deriving DecidableEq, Repr

/-- JavaScript strict equality `===` on `JsVal`.  `NaN === NaN` is false;
`===` on two arrays compares object references, and the model has no
aliasing, so two array values are distinct references and compare false
(no operation of this codebase filters on an array-valued field). -/
def jsEq : JsVal → JsVal → Bool
  | .num .nan, _ => false
  | _, .num .nan => false
  | .num .inf, .num .inf => true
  | .num .ninf, .num .ninf => true
  | .num (.rat p), .num (.rat q) => p == q
  | .str a, .str b => a == b
  | _, _ => false

/-- Model of a JavaScript object: an association list of fields in
insertion order (JavaScript object keys are unique; all concrete objects
below have distinct keys). -/
abbrev JsObj := List (String × JsVal)

namespace JsObj

/-- `Object.keys(obj)`: the field names in insertion order. -/
def keysOf (o : JsObj) : List String := o.map Prod.fst

/-- LHS of `obj[key]`: `some` value, or `none` for `undefined`. -/
def jsGet (o : JsObj) (k : String) : Option JsVal :=
  (o.find? (fun p => p.1 == k)).map Prod.snd

end JsObj

open JsObj

/-- The conjunctive equality filter of `src/index.ts`:
`Object.keys(filter).every((key) => object[key] === filter[key])`.
A missing field (`undefined`) never `===`-equals a filter value. -/
def matchesFilter (filter : JsObj) (o : JsObj) : Bool :=
  filter.all (fun p =>
    match jsGet o p.1 with
    | some v => jsEq v p.2
    | none => false)

/-- Map a list of JavaScript numbers to their exact rationals; `none` if
any entry is non-finite (outside the modelled exact domain). -/
def ratsOf : List JsNum → Option (List ℚ)
  | [] => some []
  | n :: l => do
    let q ← n.toRat?
    let qs ← ratsOf l
    some (q :: qs)

/-- Dot product `vecA.reduce((sum, a, i) => sum + a * vecB[i], 0)` over the
exact rationals (both lists have equal length when this is reached). -/
def dotProduct : List ℚ → List ℚ → ℚ
  | a :: as, b :: bs => a * b + dotProduct as bs
  | _, _ => 0

/-- Sum of squares: the radicand of `Math.sqrt(v.reduce((s, a) => s + a * a, 0))`. -/
def sumSq (l : List ℚ) : ℚ := (l.map (fun a => a * a)).foldl (· + ·) 0

/-- Sign-preserving square `x * |x|`, the strictly monotone surrogate used
for the cosine quotient (see the header comment). -/
def signedSq (x : ℚ) : ℚ := x * |x|

/-- Model of `cosineSimilarity` from `src/utils.ts`.  The code throws
`"Vectors must have the same length"` on a length mismatch, returns `0`
when either magnitude is zero (`sqrt s === 0` iff `s = 0`), and otherwise
returns `dot / (sqrt a2 * sqrt b2)` rounded to 6 digits; the model returns
the order-isomorphic surrogate `signedSq dot / (a2 * b2)` (rounding and
`sqrt` dropped, see header).  Non-finite entries put the call outside the
modelled exact domain and are reported as a model-boundary error; the code
would instead propagate IEEE `NaN`/`Infinity` arithmetic into the score. -/
def cosineSimilarity (vecA vecB : List JsNum) : Except String ℚ :=
  if vecA.length ≠ vecB.length then
    .error "Vectors must have the same length"
  else
    match ratsOf vecA, ratsOf vecB with
    | some a, some b =>
        let dot := dotProduct a b
        let magA2 := sumSq a
        let magB2 := sumSq b
        if magA2 = 0 ∨ magB2 = 0 then .ok 0
        else .ok (signedSq dot / (magA2 * magB2))
    | _, _ => .error "model boundary: non-finite vector entry"

/-- Map with exceptions, modelling a JavaScript `.map` whose callback can
throw: entries are processed left to right and the first thrown exception
propagates. -/
def exMapM (f : α → Except String β) : List α → Except String (List β)
  | [] => .ok []
  | a :: l => do
    let b ← f a
    let bs ← exMapM f l
    .ok (b :: bs)

/-- One step of a stable descending insertion: the new element goes before
the first strictly smaller key.  This is the effect of JavaScript's stable
`sort((a, b) => key b - key a)` on a list processed element by element. -/
def insertDesc (key : α → ℚ) (x : α) : List α → List α
  | [] => [x]
  | y :: ys => if key y ≤ key x then x :: y :: ys else y :: insertDesc key x ys

/-- Stable descending sort by a rational key, modelling
`array.sort((a, b) => b.key - a.key)` (ECMAScript sort is stable). -/
def sortDesc (key : α → ℚ) : List α → List α
  | [] => []
  | x :: xs => insertDesc key x (sortDesc key xs)

/-- Non-increasing order by a rational key. -/
def SortedDesc (key : α → ℚ) (l : List α) : Prop :=
  l.Pairwise (fun a b => key b ≤ key a)

/-- One `{similarity, object}` result of the exact search. -/
structure SearchResult where
  similarity : ℚ
  object : JsObj
deriving DecidableEq, Repr

/-- State of the `EmbeddingIndex` class of `src/index.ts`: the stored
objects and the key schema fixed by the first inserted object. -/
structure EmbeddingIndex where
  objects : List JsObj
  keys : List String
deriving DecidableEq, Repr

namespace EmbeddingIndex

/-- Model of `EmbeddingIndex.findVectorIndex`: index of the first object
matching the filter (`findIndex` returns `-1`, modelled as `none`). -/
def findVectorIndex (st : EmbeddingIndex) (filter : JsObj) : Option ℕ :=
  st.objects.findIdx? (fun o => matchesFilter filter o)

/-- Model of `EmbeddingIndex.validateAndAdd`.  The code rejects an object
whose `embedding` is not an array or has an `isNaN` entry, then fixes the
key schema on first insertion, then requires every fixed key to be present
(`this.keys.every((key) => key in obj)` — extra keys are *not* rejected),
and finally pushes the object. -/
def validateAndAdd (st : EmbeddingIndex) (obj : JsObj) : Except String EmbeddingIndex :=
  match jsGet obj "embedding" with
  | some (.arrNum emb) =>
      if emb.any JsNum.isNaNb then
        .error "Object must have an embedding property of type number[]"
      else if st.keys.isEmpty then
        .ok ⟨st.objects ++ [obj], keysOf obj⟩
      else if st.keys.all (fun k => k ∈ keysOf obj) then
        .ok ⟨st.objects ++ [obj], st.keys⟩
      else
        .error "Object must have the same properties as the initial objects"
  | _ => .error "Object must have an embedding property of type number[]"

/-- Model of `EmbeddingIndex.add`. -/
def add (st : EmbeddingIndex) (obj : JsObj) : Except String EmbeddingIndex :=
  validateAndAdd st obj

/-- `initialObjects.forEach((obj) => this.validateAndAdd(obj))`: a thrown
validation error propagates out of the constructor. -/
def addAll (st : EmbeddingIndex) : List JsObj → Except String EmbeddingIndex
  | [] => .ok st
  | o :: os => do
    let st' ← validateAndAdd st o
    addAll st' os

/-- Model of the `EmbeddingIndex` constructor: start from an empty state,
`validateAndAdd` every initial object, then re-fix `keys` from the first
initial object. -/
def fromInitial (initialObjects : List JsObj) : Except String EmbeddingIndex :=
  if initialObjects.isEmpty then .ok ⟨[], []⟩
  else do
    let st ← addAll ⟨[], []⟩ initialObjects
    match initialObjects.head? with
    | some o => .ok ⟨st.objects, keysOf o⟩
    | none => .ok st

/-- Model of `EmbeddingIndex.update`: locate the first match (throwing
`"Vector not found"` if none), then `validateAndAdd` the replacement —
which *pushes* it — and then overwrite the matched slot. -/
def update (st : EmbeddingIndex) (filter : JsObj) (vector : JsObj) :
    Except String EmbeddingIndex :=
  match findVectorIndex st filter with
  | none => .error "Vector not found"
  | some i => do
    let st' ← validateAndAdd st vector
    .ok ⟨st'.objects.set i vector, st'.keys⟩

/-- Model of `EmbeddingIndex.remove`: splice out the first match, or throw
`"Vector not found"`. -/
def remove (st : EmbeddingIndex) (filter : JsObj) : Except String EmbeddingIndex :=
  match findVectorIndex st filter with
  | none => .error "Vector not found"
  | some i => .ok ⟨st.objects.eraseIdx i, st.keys⟩

/-- Model of `EmbeddingIndex.removeBatch`: per-filter removal that silently
skips filters with no match. -/
def removeBatch (st : EmbeddingIndex) (filters : List JsObj) : EmbeddingIndex :=
  filters.foldl
    (fun st filter =>
      match findVectorIndex st filter with
      | none => st
      | some i => ⟨st.objects.eraseIdx i, st.keys⟩)
    st

/-- Model of `EmbeddingIndex.get`: `this.objects[this.findVectorIndex(filter)]`
or `null`. -/
def get (st : EmbeddingIndex) (filter : JsObj) : Option JsObj :=
  match findVectorIndex st filter with
  | none => none
  | some i => st.objects.get? i

/-- Model of `EmbeddingIndex.size`. -/
def size (st : EmbeddingIndex) : ℕ := st.objects.length

/-- Model of `EmbeddingIndex.clear`: resets `objects` but not `keys`. -/
def clear (st : EmbeddingIndex) : EmbeddingIndex := ⟨[], st.keys⟩

/-- Reading `obj.embedding` for the similarity computation; a non-array
value would make the JavaScript `vecB.length` access misbehave, reported
here as a model-boundary error (unreachable for validated objects). -/
def embeddingOf (o : JsObj) : Except String (List JsNum) :=
  match jsGet o "embedding" with
  | some (.arrNum l) => .ok l
  | _ => .error "model boundary: embedding is not an array"

/-- The per-candidate body of the in-memory search's `.map`: read the
embedding and pair the candidate with its cosine similarity (a thrown
dimension error propagates). -/
def searchMapFn (queryEmbedding : List JsNum) (o : JsObj) : Except String SearchResult := do
  let emb ← embeddingOf o
  let s ← cosineSimilarity queryEmbedding emb
  .ok (⟨s, o⟩ : SearchResult)

/-- Model of the in-memory branch of `EmbeddingIndex.search`
(`useStorage: "none"`): apply `options.topK || DEFAULT_TOP_K`, filter the
objects, map each to `{similarity, object}` via `searchMapFn`, sort
descending by similarity (stable) and take the top `k`. -/
def search (st : EmbeddingIndex) (queryEmbedding : List JsNum) (topK : ℕ)
    (filter : JsObj) : Except String (List SearchResult) := do
  let k := if topK = 0 then 3 else topK
  let candidates := st.objects.filter (fun o => matchesFilter filter o)
  let similarities ← exMapM (searchMapFn queryEmbedding) candidates
  .ok ((sortDesc SearchResult.similarity similarities).take k)

/-- Model of `EmbeddingIndex.saveToIndexedDB`.  The environment flag
`hasIndexedDB` models `typeof indexedDB !== "undefined"`.  On success the
returned list is the set of records handed to the storage transaction; an
error means the call threw before any write was attempted. -/
def saveToIndexedDB (hasIndexedDB : Bool) (st : EmbeddingIndex) :
    Except String (List JsObj) :=
  if !hasIndexedDB then .error "IndexedDB is not supported"
  else if st.objects.isEmpty then .error "Index is empty. Nothing to save"
  else .ok st.objects

/-- Model of `EmbeddingIndex.saveIndex`: dispatches on the storage type,
throwing on anything other than `"indexedDB"`. -/
def saveIndex (hasIndexedDB : Bool) (st : EmbeddingIndex) (storageType : String) :
    Except String (List JsObj) :=
  if storageType = "indexedDB" then saveToIndexedDB hasIndexedDB st
  else .error "Unsupported storage type"

/-- The mutating operations of the `EmbeddingIndex` API. -/
inductive Op where
  | add (obj : JsObj) : Op
  | update (filter : JsObj) (vector : JsObj) : Op
  | remove (filter : JsObj) : Op
  | removeBatch (filters : List JsObj) : Op
  | clear : Op

/-- Apply one mutating operation (throwing operations leave the state
unchanged when they throw, which `Except` captures by not producing a
state). -/
def applyOp (st : EmbeddingIndex) : Op → Except String EmbeddingIndex
  | .add obj => add st obj
  | .update filter vector => update st filter vector
  | .remove filter => remove st filter
  | .removeBatch filters => .ok (removeBatch st filters)
  | .clear => .ok (clear st)

end EmbeddingIndex

/-! ## The HNSW-style ApproximateIndex (`src/hnsw.ts`)

Vectors handled by `ExperimentalHNSWIndex` are modelled as exact rational
lists (`List ℚ`); `EuclideanDistance` keeps the squared distance (the
radicand of the code's `Math.sqrt`) as its order-isomorphic surrogate, see
the header comment.  The candidate priority queue of the code is an array
kept ascending by re-sorting (stably) after each push and popping from the
front; on an already-sorted list that is exactly a stable sorted insert,
which `pqInsert` implements.  The layer drawn in `insert` depends on
`Math.random()`; randomness is modelled by passing the value
`lnU = Math.log(Math.random())` (a non-positive real, here a rational) as
an explicit argument. -/

/-- One node of the layered proximity graph. -/
structure HNSWNode where
  vector : List ℚ
  connections : List ℕ
  layerBelow : Option ℕ
deriving DecidableEq, Repr

/-- One layer: an ordered array of nodes. -/
abbrev Layer := List HNSWNode

/-- Model of `EuclideanDistance`: throws on a length mismatch, otherwise
the squared Euclidean distance (the code's value is the square root of
this; the monotone surrogate keeps every comparison identical). -/
def EuclideanDistance (a b : List ℚ) : Except String ℚ :=
  if a.length ≠ b.length then .error "Vectors must have the same length"
  else .ok ((a.zip b).foldl (fun acc p => acc + (p.1 - p.2) * (p.1 - p.2)) 0)

/-- Stable ascending insert by the first component: the effect of
`elements.push(x); elements.sort((a, b) => a[0] - b[0])` on an already
sorted array (the pushed element lands after all equal keys). -/
def pqInsert (x : ℚ × ℕ) : List (ℚ × ℕ) → List (ℚ × ℕ)
  | [] => [x]
  | y :: ys => if x.1 < y.1 then x :: y :: ys else y :: pqInsert x ys

/-- Trim of the best-result list: `if (nns.length > ef) nns.pop()` (drops
the worst, i.e. last, element). -/
def nnsTrim (ef : ℕ) (l : List (ℚ × ℕ)) : List (ℚ × ℕ) :=
  if ef < l.length then l.dropLast else l

/-- Expansion of the popped candidate's neighbours in `_searchLayer`: for
each connection, skip a missing node, compute the distance (a thrown
length-mismatch propagates — the code computes it before the `visited`
test), mark unvisited nodes visited, and admit a node to `candidates` and
`nns` when it improves the current worst result or the result list is not
full. -/
def expandNeighbors (graph : Layer) (query : List ℚ) (ef : ℕ) :
    List ℕ → List (ℚ × ℕ) → List ℕ → List (ℚ × ℕ) →
    Except String (List (ℚ × ℕ) × List ℕ × List (ℚ × ℕ))
  | [], nns, visited, candidates => .ok (nns, visited, candidates)
  | e :: rest, nns, visited, candidates =>
    match graph.get? e with
    | none => expandNeighbors graph query ef rest nns visited candidates
    | some graphE => do
      let dist ← EuclideanDistance graphE.vector query
      if e ∈ visited then
        expandNeighbors graph query ef rest nns visited candidates
      else
        match nns.getLast? with
        | none =>
          expandNeighbors graph query ef rest
            (nnsTrim ef (pqInsert (dist, e) nns)) (e :: visited)
            (pqInsert (dist, e) candidates)
        | some lastNn =>
          if dist < lastNn.1 ∨ nns.length < ef then
            expandNeighbors graph query ef rest
              (nnsTrim ef (pqInsert (dist, e) nns)) (e :: visited)
              (pqInsert (dist, e) candidates)
          else
            expandNeighbors graph query ef rest nns (e :: visited) candidates

/-- The `while (!candidates.isEmpty())` loop of `_searchLayer`.  Each
iteration pops the best candidate; since every push into `candidates` is
guarded by the `visited` set, at most `graph.length` elements are ever
inserted, so `graph.length + 1` fuel makes the fuel-exhaustion branch
unreachable. -/
def searchLoop (graph : Layer) (query : List ℚ) (ef : ℕ) :
    ℕ → List (ℚ × ℕ) → List ℕ → List (ℚ × ℕ) → Except String (List (ℚ × ℕ))
  | 0, nns, _, _ => .ok nns
  | fuel + 1, nns, visited, candidates =>
    match candidates with
    | [] => .ok nns
    | current :: rest =>
      match nns.getLast? with
      | some lastNns =>
        if lastNns.1 < current.1 then .ok nns
        else
          match graph.get? current.2 with
          | none => searchLoop graph query ef fuel nns visited rest
          | some graphCurrent => do
            let (nns', visited', candidates') ←
              expandNeighbors graph query ef graphCurrent.connections nns visited rest
            searchLoop graph query ef fuel nns' visited' candidates'
      | none =>
        match graph.get? current.2 with
        | none => searchLoop graph query ef fuel nns visited rest
        | some graphCurrent => do
          let (nns', visited', candidates') ←
            expandNeighbors graph query ef graphCurrent.connections nns visited rest
          searchLoop graph query ef fuel nns' visited' candidates'

/-- Model of `_searchLayer`: validate the entry index (an entry beyond the
array throws `Invalid entry index`; the in-bounds-but-undefined throw of
the code is unreachable on the dense arrays built by `insert`), seed the
result list, the visited set and the candidate queue with the entry, and
run the bounded beam search. -/
def searchLayer (graph : Layer) (entry : ℕ) (query : List ℚ) (ef : ℕ) :
    Except String (List (ℚ × ℕ)) :=
  if graph.length ≤ entry then .error s!"Invalid entry index: {entry}"
  else
    match graph.get? entry with
    | none => .error s!"Graph entry at index {entry} is undefined"
    | some graphEntry => do
      let d ← EuclideanDistance graphEntry.vector query
      searchLoop graph query ef (graph.length + 1) [(d, entry)] [entry] [(d, entry)]

/-- Model of `getInsertLayer`:
`Math.min(-Math.floor(Math.log(Math.random()) * mL), L - 1)`, with
`lnU` standing for the sampled `Math.log(Math.random())`. -/
def getInsertLayer (L : ℕ) (mL lnU : ℚ) : ℤ :=
  min (-(lnU * mL).floor) ((L : ℤ) - 1)

/-- Replace the element at an index, leaving the list unchanged when the
index is out of range: the effect of `graph[i]?.connections.push(...)`. -/
def listModify (f : α → α) : ℕ → List α → List α
  | _, [] => []
  | 0, a :: l => f a :: l
  | n + 1, a :: l => a :: listModify f n l

/-- State of the `ExperimentalHNSWIndex` class. -/
structure ExperimentalHNSWIndex where
  L : ℕ
  mL : ℚ
  efc : ℕ
  index : List Layer
deriving DecidableEq, Repr

namespace ExperimentalHNSWIndex

/-- The class constructor: `this.index = Array.from({length: L}, () => [])`. -/
def ofParams (L : ℕ) (mL : ℚ) (efc : ℕ) : ExperimentalHNSWIndex :=
  ⟨L, mL, efc, List.replicate L []⟩

/-- The `for (let n = 0; n < this.L; n++)` loop of `insert`, with the loop
counter `n`, the running entry point `startV` and the mutated layer array
made explicit.  `remaining` counts the iterations left (`L - n`).  Per
iteration: a missing layer slot is a no-op; an empty layer is seeded with a
standalone node; above the drawn layer (`n < l`) a single best-neighbour
hop updates the entry point; at and below it the node is connected
bidirectionally to the `efc`-wide search result and appended, and the entry
point follows `layerBelow`.  (When `layerBelow` is `null` or the entry is
out of range the code would make `startV` `null`/`undefined`; that happens
only after the base layer, where the loop ends, so the model keeps
`startV`.) -/
def insertLoop (L efc : ℕ) (vec : List ℚ) (l : ℤ) :
    ℕ → ℕ → ℕ → List Layer → Except String (List Layer)
  | 0, _, _, index => .ok index
  | remaining + 1, n, startV, index =>
    match index.get? n with
    | none => insertLoop L efc vec l remaining (n + 1) startV index
    | some graph =>
      if graph.length = 0 then
        let nextLayerLength : Option ℕ := (index.get? (n + 1)).map List.length
        let node : HNSWNode := ⟨vec, [], if n < L - 1 then nextLayerLength else none⟩
        insertLoop L efc vec l remaining (n + 1) startV (index.set n (graph ++ [node]))
      else if (n : ℤ) < l then do
        let res ← searchLayer graph startV vec 1
        let startV' := match res.head? with
          | some best => best.2
          | none => startV
        insertLoop L efc vec l remaining (n + 1) startV' index
      else do
        let nextLayerLength : Option ℕ := (index.get? (n + 1)).map List.length
        let nns ← searchLayer graph startV vec efc
        let newIdx := graph.length
        let node : HNSWNode :=
          ⟨vec, nns.map Prod.snd, if n < L - 1 then nextLayerLength else none⟩
        let graph := nns.foldl
          (fun g nn =>
            listModify (fun m => { m with connections := m.connections ++ [newIdx] }) nn.2 g)
          graph
        let graph := graph ++ [node]
        let startV' := match graph.get? startV with
          | some graphStartV =>
            match graphStartV.layerBelow with
            | some lb => lb
            | none => startV
          | none => startV
        insertLoop L efc vec l remaining (n + 1) startV' (index.set n graph)

/-- Model of `insert`: draw the target layer from the sampled `lnU` and run
the layer walk starting from entry point `0`. -/
def insert (self : ExperimentalHNSWIndex) (vec : List ℚ) (lnU : ℚ) :
    Except String ExperimentalHNSWIndex := do
  let l := getInsertLayer self.L self.mL lnU
  let index ← insertLoop self.L self.efc vec l self.L 0 0 self.index
  .ok { self with index := index }

/-- The `for (const graph of this.index)` descent of `search`: on each
layer run the layer search from the current entry; if the best node's
`layerBelow` is `null` (base layer) re-run the layer search and return it,
otherwise follow `layerBelow` down.  (An empty layer result or an
out-of-range best node — unreachable on graphs built by `insert` — keeps
the entry point, where the code would carry `undefined`.) -/
def searchRec (query : List ℚ) (ef : ℕ) :
    List Layer → ℕ → Except String (List (ℚ × ℕ))
  | [], _ => .ok []
  | graph :: restLayers, bestV => do
    let res ← searchLayer graph bestV query ef
    match res.head? with
    | some best =>
      match graph.get? best.2 with
      | some node =>
        match node.layerBelow with
        | none => searchLayer graph best.2 query ef
        | some lb => searchRec query ef restLayers lb
      | none => searchRec query ef restLayers best.2
    | none => searchRec query ef restLayers bestV

/-- Model of `search(query, ef = 1)`: an empty base-entry layer returns
`[]` immediately, otherwise the layer descent runs from the top layer with
entry point `0`. -/
def search (self : ExperimentalHNSWIndex) (query : List ℚ) (ef : ℕ) :
    Except String (List (ℚ × ℕ)) :=
  match self.index.head? with
  | some l0 => if l0.length = 0 then .ok [] else searchRec query ef self.index 0
  | none => searchRec query ef self.index 0

/-- The structural snapshot `{L, mL, efc, index}` produced by `toJSON` and
consumed by `fromJSON` (a plain JavaScript object, not a byte string). -/
structure HNSWSnapshot where
  L : ℕ
  mL : ℚ
  efc : ℕ
  index : List Layer
deriving DecidableEq, Repr

/-- Model of `toJSON()`. -/
def toJSON (self : ExperimentalHNSWIndex) : HNSWSnapshot :=
  ⟨self.L, self.mL, self.efc, self.index⟩

/-- Model of `static fromJSON(json)`: the code constructs
`new ExperimentalHNSWIndex(json.L, json.mL, json.efc)` and never installs
`json.index`, so the graph layers come out empty. -/
def fromJSON (json : HNSWSnapshot) : ExperimentalHNSWIndex :=
  ofParams json.L json.mL json.efc

end ExperimentalHNSWIndex

/-! ## Binary serialization (`toBinary` / `fromBinary`)

`toBinary` feeds the structural snapshot `{L, mL, efc, index}` to
`@msgpack/msgpack`'s `encode`, and `fromBinary` runs `decode` and installs
the decoded `index` via `setIndex`.  The external byte codec is modelled at
the level of msgpack's data model (`MP`): integers, floats, nil, arrays
and string-keyed maps — `encode`/`decode` between `MP` and raw bytes is
the vendored library, assumed faithful, while the structure-to-`MP`
(de)construction below is what the repository's code determines. -/

/-- The msgpack data model: what `encode` serializes and `decode` yields. -/
inductive MP where
  | int (n : ℤ) : MP
  | num (q : ℚ) : MP
  | nil : MP
  | arr (l : List MP) : MP
  | map (l : List (String × MP)) : MP
deriving Repr

/-- Field access on a decoded msgpack map. -/
def mpField (l : List (String × MP)) (k : String) : Except String MP :=
  match l.find? (fun p => p.1 == k) with
  | some p => .ok p.2
  | none => .error "missing field"

/-- Decode a float. -/
def decodeRat : MP → Except String ℚ
  | .num q => .ok q
  | _ => .error "expected number"

/-- Decode a non-negative integer. -/
def decodeNatMP : MP → Except String ℕ
  | .int n => if n < 0 then .error "expected non-negative integer" else .ok n.toNat
  | _ => .error "expected integer"

/-- Decode a node index or `null`. -/
def decodeLayerBelow : MP → Except String (Option ℕ)
  | .nil => .ok none
  | .int n => if n < 0 then .error "expected non-negative integer" else .ok (some n.toNat)
  | _ => .error "expected integer or nil"

/-- Encode a vector. -/
def encodeVector (v : List ℚ) : MP := .arr (v.map MP.num)

/-- Decode a vector. -/
def decodeVector : MP → Except String (List ℚ)
  | .arr l => exMapM decodeRat l
  | _ => .error "expected array"

/-- Encode a connection list. -/
def encodeConnections (c : List ℕ) : MP := .arr (c.map (fun i : ℕ => MP.int i))

/-- Decode a connection list. -/
def decodeConnections : MP → Except String (List ℕ)
  | .arr l => exMapM decodeNatMP l
  | _ => .error "expected array"

/-- Encode one graph node. -/
def encodeNode (nd : HNSWNode) : MP :=
  .map [("vector", encodeVector nd.vector),
        ("connections", encodeConnections nd.connections),
        ("layerBelow", match nd.layerBelow with | some i => .int i | none => .nil)]

/-- Decode one graph node. -/
def decodeNode : MP → Except String HNSWNode
  | .map l => do
    let v ← decodeVector (← mpField l "vector")
    let c ← decodeConnections (← mpField l "connections")
    let lb ← decodeLayerBelow (← mpField l "layerBelow")
    .ok ⟨v, c, lb⟩
  | _ => .error "expected map"

/-- Encode one layer. -/
def encodeLayer (g : Layer) : MP := .arr (g.map encodeNode)

/-- Decode one layer. -/
def decodeLayer : MP → Except String Layer
  | .arr l => exMapM decodeNode l
  | _ => .error "expected array"

/-- Encode the layer array. -/
def encodeIndex (idx : List Layer) : MP := .arr (idx.map encodeLayer)

/-- Decode the layer array. -/
def decodeIndex : MP → Except String (List Layer)
  | .arr l => exMapM decodeLayer l
  | _ => .error "expected array"

namespace ExperimentalHNSWIndex

/-- Model of `toBinary()`: `encode({L, mL, efc, index})`. -/
def toBinary (self : ExperimentalHNSWIndex) : MP :=
  .map [("L", .int self.L), ("mL", .num self.mL), ("efc", .int self.efc),
        ("index", encodeIndex self.index)]

/-- Model of `static fromBinary(binary)`: `decode` the snapshot, construct
`new ExperimentalHNSWIndex(data.L, data.mL, data.efc)` and install
`data.index` with `setIndex`. -/
def fromBinary (binary : MP) : Except String ExperimentalHNSWIndex :=
  match binary with
  | .map l => do
    let L ← decodeNatMP (← mpField l "L")
    let mL ← decodeRat (← mpField l "mL")
    let efc ← decodeNatMP (← mpField l "efc")
    let index ← decodeIndex (← mpField l "index")
    .ok { ofParams L mL efc with index := index }
  | _ => .error "expected map"

end ExperimentalHNSWIndex

/-! ## The batch embedding pipeline
(`doc-generator/src/embedding-generator.ts`)

`getEmbedding` (the embedding model behind its memoizing cache) is an
external asynchronous capability that, per call, either resolves to a
vector or rejects; the pipeline only observes that outcome.  It is
modelled by an oracle from the chunk text and the 1-based attempt number
to `Option (List JsNum)` — `none` for a rejected call, `some v` for a
resolved vector `v` (the code additionally treats a resolved empty vector
as a failure).  Awaited delays perform no state change; each
`generateEmbeddingWithRetry` run returns, next to its vector, the list of
milliseconds arguments passed to `delay`, so the backoff schedule is
observable. -/

/-- One documentation chunk (the pipeline reads only `content` and logs `id`). -/
structure DocChunk where
  id : String
  content : String
deriving DecidableEq, Repr

/-- A processed document: the chunk list the pipeline flattens. -/
structure ProcessedDoc where
  chunks : List DocChunk
deriving DecidableEq, Repr

/-- Outcome oracle for `getEmbedding(text)` at a given 1-based attempt. -/
abbrev EmbedOracle := String → ℕ → Option (List JsNum)

/-- The result record `{chunks, embeddings}` of `generateEmbeddings`. -/
structure EmbeddingData where
  chunks : List DocChunk
  embeddings : List (List JsNum)
deriving DecidableEq, Repr

/-- The `for (let attempt = 1; attempt <= this.maxRetries; attempt++)`
loop of `generateEmbeddingWithRetry`: `remaining` counts the attempts left
(`R - attempt + 1`).  A resolved non-empty vector returns immediately; any
other outcome waits `retryDelay * attempt` when further attempts remain;
after the last attempt the sentinel zero-vector of length 384 is
returned.  The second component collects the `delay` arguments. -/
def retryFrom (oracle : EmbedOracle) (R d : ℕ) (c : DocChunk) :
    ℕ → ℕ → List ℕ → List JsNum × List ℕ
  | _, 0, delays => (List.replicate 384 (JsNum.rat 0), delays)
  | attempt, remaining + 1, delays =>
    match oracle c.content attempt with
    | some e =>
      if 0 < e.length then (e, delays)
      else retryFrom oracle R d c (attempt + 1) remaining
        (if attempt < R then delays ++ [d * attempt] else delays)
    | none => retryFrom oracle R d c (attempt + 1) remaining
        (if attempt < R then delays ++ [d * attempt] else delays)

/-- Model of `generateEmbeddingWithRetry(chunk)` with `maxRetries = R` and
`retryDelay = d`: attempts start at 1. -/
def generateEmbeddingWithRetry (oracle : EmbedOracle) (R d : ℕ) (c : DocChunk) :
    List JsNum × List ℕ :=
  retryFrom oracle R d c 1 R []

/-- Model of `processBatch`: one embedding per chunk in order, plus the
successful/failed counts (failed = the returned vector is all zeros). -/
def processBatch (oracle : EmbedOracle) (R d : ℕ) (chunks : List DocChunk) :
    List (List JsNum) × ℕ × ℕ :=
  let embeddings := chunks.map (fun c => (generateEmbeddingWithRetry oracle R d c).1)
  (embeddings,
   (embeddings.filter (fun e => !e.all JsNum.isZero)).length,
   (embeddings.filter (fun e => e.all JsNum.isZero)).length)

/-- The batch partition `allChunks.slice(i, i + B)` of the
`for (let i = 0; i < allChunks.length; i += B)` loop, with the list length
as structural fuel.  For `B = 0` the JavaScript loop never terminates; all
theorems below assume `0 < B`, where the fuel is never exhausted. -/
def chunkBatches : ℕ → List DocChunk → ℕ → List (List DocChunk)
  | 0, _, _ => []
  | _, [], _ => []
  | fuel + 1, l, B => l.take B :: chunkBatches fuel (l.drop B) B

/-- Model of `generateEmbeddings(documents)`: flatten the chunks of all
documents, process them batch by batch (each batch strictly after the
previous one) and return the concatenated embeddings aligned with the
chunk list. -/
def generateEmbeddings (oracle : EmbedOracle) (B R d : ℕ)
    (documents : List ProcessedDoc) : EmbeddingData :=
  let allChunks := documents.foldl (fun acc doc => acc ++ doc.chunks) []
  let batches := chunkBatches allChunks.length allChunks B
  let embeddings := (batches.map (fun b => (processBatch oracle R d b).1)).flatten
  ⟨allChunks, embeddings⟩

/-- The issue string of check 1 of `validateEmbeddings`. -/
def mismatchMsg (c e : ℕ) : String := s!"Mismatch: {c} chunks but {e} embeddings"

/-- The issue string of check 2 of `validateEmbeddings`. -/
def dimMsg (n : ℕ) : String := s!"{n} embeddings have incorrect dimensions"

/-- The issue string of check 3 of `validateEmbeddings`. -/
def emptyMsg (n : ℕ) : String := s!"{n} embeddings are empty (all zeros)"

/-- The issue string of check 4 of `validateEmbeddings`. -/
def invalidMsg (n : ℕ) : String := s!"{n} embeddings contain invalid values"

/-- The `stats` record of `validateEmbeddings` / `getStats`. -/
structure EmbeddingStats where
  totalChunks : ℕ
  successfulEmbeddings : ℕ
  failedEmbeddings : ℕ
  processingTime : ℚ
  averageTimePerChunk : ℚ
deriving DecidableEq, Repr

/-- The `{isValid, issues, stats}` result of `validateEmbeddings`. -/
structure ValidationResult where
  isValid : Bool
  issues : List String
  stats : EmbeddingStats
deriving DecidableEq, Repr

/-- Model of `validateEmbeddings(embeddingData)`: the four checks run in
order, each pushing its issue string when it fires; `isValid` is
`issues.length === 0`. -/
def validateEmbeddings (data : EmbeddingData) : ValidationResult :=
  let embeddings := data.embeddings
  let chunks := data.chunks
  let issues : List String := []
  let issues := if embeddings.length ≠ chunks.length then
      issues ++ [mismatchMsg chunks.length embeddings.length] else issues
  let invalidDimensions := embeddings.filter (fun e => e.length ≠ 384)
  let issues := if 0 < invalidDimensions.length then
      issues ++ [dimMsg invalidDimensions.length] else issues
  let emptyEmbeddings := embeddings.filter (fun e => e.all JsNum.isZero)
  let issues := if 0 < emptyEmbeddings.length then
      issues ++ [emptyMsg emptyEmbeddings.length] else issues
  let invalidEmbeddings := embeddings.filter (fun e => e.any (fun v => !v.isFiniteb))
  let issues := if 0 < invalidEmbeddings.length then
      issues ++ [invalidMsg invalidEmbeddings.length] else issues
  { isValid := issues.isEmpty
    issues := issues
    stats :=
      { totalChunks := chunks.length
        successfulEmbeddings := embeddings.length - emptyEmbeddings.length
        failedEmbeddings := emptyEmbeddings.length
        processingTime := 0
        averageTimePerChunk := 0 } }

/-! ## Helper lemmas for the binary round trip -/

/-- Bind of a successful `Except` computation. -/
theorem exBind_ok (a : α) (f : α → Except String β) :
    (Except.ok a >>= f) = f a := rfl

/-- Decoding after encoding element-wise recovers the original list. -/
theorem exMapM_map_ok {α β : Type} (f : α → β) (g : β → Except String α)
    (h : ∀ a, g (f a) = .ok a) : ∀ l : List α, exMapM g (l.map f) = .ok l := by
  intro l
  induction l with
  | nil => rfl
  | cons a l ih => simp [exMapM, h, ih, exBind_ok]

theorem decodeRat_num (q : ℚ) : decodeRat (.num q) = .ok q := rfl

theorem decodeNatMP_int (n : ℕ) : decodeNatMP (.int n) = .ok n := by
  simp [decodeNatMP]

theorem decodeVector_encodeVector (v : List ℚ) :
    decodeVector (encodeVector v) = .ok v :=
  exMapM_map_ok MP.num decodeRat decodeRat_num v

theorem decodeConnections_encodeConnections (c : List ℕ) :
    decodeConnections (encodeConnections c) = .ok c := by
  rw [encodeConnections, decodeConnections]
  exact exMapM_map_ok _ decodeNatMP decodeNatMP_int c

theorem decodeLayerBelow_encode (lb : Option ℕ) :
    decodeLayerBelow (match lb with | some i => .int i | none => .nil) = .ok lb := by
  cases lb with
  | none => rfl
  | some i => simp [decodeLayerBelow]

theorem decodeNode_encodeNode (nd : HNSWNode) :
    decodeNode (encodeNode nd) = .ok nd := by
  simp [decodeNode, encodeNode, mpField, decodeVector_encodeVector,
    decodeConnections_encodeConnections, decodeLayerBelow_encode, List.find?,
    exBind_ok]

theorem decodeLayer_encodeLayer (g : Layer) :
    decodeLayer (encodeLayer g) = .ok g :=
  exMapM_map_ok encodeNode decodeNode decodeNode_encodeNode g

theorem decodeIndex_encodeIndex (idx : List Layer) :
    decodeIndex (encodeIndex idx) = .ok idx :=
  exMapM_map_ok encodeLayer decodeLayer decodeLayer_encodeLayer idx

/-- The binary codec round-trips the whole `ExperimentalHNSWIndex` state:
`fromBinary(toBinary(x))` reconstructs `L`, `mL`, `efc` and — through
`setIndex` — the full layer array. -/
theorem fromBinary_toBinary (x : ExperimentalHNSWIndex) :
    ExperimentalHNSWIndex.fromBinary x.toBinary = .ok x := by
  simp [ExperimentalHNSWIndex.fromBinary, ExperimentalHNSWIndex.toBinary, mpField,
    List.find?, decodeNatMP_int, decodeRat_num, decodeIndex_encodeIndex,
    ExperimentalHNSWIndex.ofParams, exBind_ok]

/-! ## Concrete example objects used by several checks -/

/-- Example object: `{id: "a", embedding: [1]}`. -/
def objId1 : JsObj := [("id", .str "a"), ("embedding", .arrNum [.rat 1])]

/-- Example replacement with the same key set: `{id: "a", embedding: [2]}`. -/
def objId1v2 : JsObj := [("id", .str "a"), ("embedding", .arrNum [.rat 2])]

/-- Example object with an extra key: `{id: "b", embedding: [1], extra: "x"}`. -/
def objExtraKey : JsObj :=
  [("id", .str "b"), ("embedding", .arrNum [.rat 1]), ("extra", .str "x")]

/-- Example object with a 3-dimensional embedding: `{id: "d", embedding: [1, 2, 3]}`. -/
def objDim3 : JsObj :=
  [("id", .str "d"), ("embedding", .arrNum [.rat 1, .rat 2, .rat 3])]

/-- Example object whose embedding holds `Infinity`: `{id: "c", embedding: [Infinity]}`. -/
def objInf : JsObj := [("id", .str "c"), ("embedding", .arrNum [.inf])]

/-! ## The claims -/

/-- C1.  Evaluation of the code at the failing input: an index holding the
single object `{id: "a", embedding: [1]}` is updated by the filter
`{id: "a"}` with the valid replacement `{id: "a", embedding: [2]}`.
`update` calls `validateAndAdd`, which *pushes* the replacement, and then
also overwrites the matched slot, so the size grows from 1 to 2 and the
stored list ends as two copies of the replacement — the claim's "size
after update equals size before" fails on the code. -/
theorem c1_update_grows :
    (EmbeddingIndex.fromInitial [objId1]).map EmbeddingIndex.size = .ok 1
    ∧ ((EmbeddingIndex.fromInitial [objId1]).bind
        (fun st => st.update [("id", JsVal.str "a")] objId1v2)).map EmbeddingIndex.size
      = .ok 2
    ∧ ((EmbeddingIndex.fromInitial [objId1]).bind
        (fun st => st.update [("id", JsVal.str "a")] objId1v2)).map EmbeddingIndex.objects
      = .ok [objId1v2, objId1v2] :=
  ⟨rfl, rfl, rfl⟩

/-- The graph state after one `insert` of `[1, 2]` into
`new ExperimentalHNSWIndex(5, 0.62, 10)` with `lnU = -1`: every layer is
seeded with the standalone node. -/
def hnswC2 : ExperimentalHNSWIndex :=
  ⟨5, 62/100, 10,
   [[⟨[1,2],[],some 0⟩], [⟨[1,2],[],some 0⟩], [⟨[1,2],[],some 0⟩],
    [⟨[1,2],[],some 0⟩], [⟨[1,2],[],none⟩]]⟩

theorem c2_layer : getInsertLayer 5 (62/100) (-1) = 1 := by
  norm_num [getInsertLayer, Rat.floor]

theorem c2_insert :
    (ExperimentalHNSWIndex.ofParams 5 (62/100) 10).insert [1, 2] (-1) = .ok hnswC2 := by
  simp only [ExperimentalHNSWIndex.insert, ExperimentalHNSWIndex.ofParams, c2_layer]
  norm_num [ExperimentalHNSWIndex.insertLoop, hnswC2, List.set, exBind_ok]

theorem c2_searchOrig : hnswC2.search [1, 2] 1 = .ok [((0:ℚ), 0)] := by
  norm_num [hnswC2, ExperimentalHNSWIndex.search, ExperimentalHNSWIndex.searchRec,
    searchLayer, searchLoop, expandNeighbors, EuclideanDistance, exBind_ok]

theorem c2_searchJSON :
    (ExperimentalHNSWIndex.fromJSON hnswC2.toJSON).search [1, 2] 1 = .ok [] := by
  norm_num [hnswC2, ExperimentalHNSWIndex.search, ExperimentalHNSWIndex.fromJSON,
    ExperimentalHNSWIndex.toJSON, ExperimentalHNSWIndex.ofParams, List.replicate]

/-- C2.  Evaluation of the code at the failing input: after one `insert`
of `[1, 2]` (drawn layer from `lnU = -1`), `fromJSON(toJSON(x))` loses the
whole graph — `fromJSON` never installs `json.index`, so the rebuilt
instance has `L` empty layers and `search([1, 2], 1)` returns `[]`, while
the original returns the inserted node at distance 0. -/
theorem c2_fromJSON_drops_graph :
    ((ExperimentalHNSWIndex.ofParams 5 (62/100) 10).insert [1, 2] (-1)).map
        (fun x =>
          ((ExperimentalHNSWIndex.fromJSON x.toJSON).index,
           (ExperimentalHNSWIndex.fromJSON x.toJSON).search [1, 2] 1,
           x.search [1, 2] 1))
      = .ok (List.replicate 5 [], .ok [], .ok [((0 : ℚ), 0)]) := by
  rw [c2_insert]
  simp only [Except.map]
  rw [c2_searchJSON, c2_searchOrig]
  rfl

/-- C3.  For every `ExperimentalHNSWIndex` state `x` (in particular any
state built by a sequence of `insert` calls), every query and every `ef`,
the binary round trip `fromBinary(x.toBinary())` succeeds and its
`search(q, ef)` result is exactly `x.search(q, ef)`. -/
theorem c3_binary_roundtrip_search (x : ExperimentalHNSWIndex)
    (q : List ℚ) (ef : ℕ) :
    (ExperimentalHNSWIndex.fromBinary x.toBinary).map (fun y => y.search q ef)
      = .ok (x.search q ef) := by
  rw [fromBinary_toBinary]
  rfl

/-- Modelled from the spec claim, for comparison with the code:
`l = min(floor(-ln(U)·mL), L-1)` with `lnU` standing for `ln(U)`. -/
def specClaimInsertLayer (L : ℕ) (mL lnU : ℚ) : ℤ :=
  min ⌊(-lnU) * mL⌋ ((L : ℤ) - 1)

/-- C6, counterexample.  At `L = 5`, `mL = 0.62` and `U = e⁻¹`
(`lnU = -1`), the code's `getInsertLayer` yields
`min(-floor(-0.62), 4) = 1`, while the claimed formula
`min(floor(-ln(U)·mL), L-1) = min(floor(0.62), 4) = 0`: the code negates
*after* flooring, which is a ceiling, not the claimed floor. -/
theorem intFloor_ratFloor (q : ℚ) : ⌊q⌋ = q.floor := rfl

theorem c6_counterexample :
    getInsertLayer 5 (62/100) (-1) = 1 ∧ specClaimInsertLayer 5 (62/100) (-1) = 0 := by
  constructor
  · norm_num [getInsertLayer, Rat.floor]
  · rw [specClaimInsertLayer, intFloor_ratFloor]
    norm_num [Rat.floor]

/-- C6, amended.  The insertion layer drawn by `getInsertLayer` (and hence
by `insert`) equals `min(ceil(-ln(U)·mL), L-1)` — the ceiling, not the
floor, of `-ln(U)·mL` — for every `L`, `mL` and sampled `lnU`. -/
theorem c6_insert_layer (L : ℕ) (mL lnU : ℚ) :
    getInsertLayer L mL lnU = min ⌈(-lnU) * mL⌉ ((L : ℤ) - 1) := by
  unfold getInsertLayer
  rw [neg_mul, Int.ceil_neg, intFloor_ratFloor]


/-- C10.  With IndexedDB available, saving an empty index — through
`saveToIndexedDB` directly or through `saveIndex("indexedDB")` — throws
`"Index is empty. Nothing to save"`; in the model an `error` result is
produced strictly before any record list is handed to storage, so an empty
index is never persisted. -/
theorem c10_empty_save (st : EmbeddingIndex) (h : st.objects = []) :
    st.saveToIndexedDB true = .error "Index is empty. Nothing to save"
    ∧ st.saveIndex true "indexedDB" = .error "Index is empty. Nothing to save" := by
  constructor <;>
    simp [EmbeddingIndex.saveIndex, EmbeddingIndex.saveToIndexedDB, h]

/-- C10, witness: the empty-state instance of `c10_empty_save`. -/
theorem c10_empty_save_witness :
    EmbeddingIndex.saveToIndexedDB true ⟨[], []⟩
        = .error "Index is empty. Nothing to save"
    ∧ EmbeddingIndex.saveIndex true ⟨[], []⟩ "indexedDB"
        = .error "Index is empty. Nothing to save" :=
  c10_empty_save ⟨[], []⟩ rfl

/-- C7.  `validateEmbeddings` raises exactly the applicable issues among
the four independent checks, in their fixed order and with their exact
message strings and counts, and `isValid` is `true` iff no issue was
raised — equivalently, iff the counts match, every embedding has length
384, none is all-zero and none contains a non-finite value. -/
theorem c7_validate_embeddings (data : EmbeddingData) :
    ((validateEmbeddings data).isValid = true ↔ (validateEmbeddings data).issues = [])
    ∧ (validateEmbeddings data).issues
        = (if data.embeddings.length ≠ data.chunks.length then
             [mismatchMsg data.chunks.length data.embeddings.length] else [])
          ++ (if 0 < (data.embeddings.filter (fun e => e.length ≠ 384)).length then
             [dimMsg (data.embeddings.filter (fun e => e.length ≠ 384)).length] else [])
          ++ (if 0 < (data.embeddings.filter (fun e => e.all JsNum.isZero)).length then
             [emptyMsg (data.embeddings.filter (fun e => e.all JsNum.isZero)).length] else [])
          ++ (if 0 < (data.embeddings.filter (fun e => e.any (fun v => !v.isFiniteb))).length then
             [invalidMsg (data.embeddings.filter (fun e => e.any (fun v => !v.isFiniteb))).length] else [])
    ∧ ((validateEmbeddings data).issues = [] ↔
        (data.embeddings.length = data.chunks.length
         ∧ (∀ e ∈ data.embeddings, e.length = 384)
         ∧ (∀ e ∈ data.embeddings, e.all JsNum.isZero = false)
         ∧ (∀ e ∈ data.embeddings, e.any (fun v => !v.isFiniteb) = false))) := by
  refine ⟨?_, ?_, ?_⟩
  · simp [validateEmbeddings, List.isEmpty_iff]
  · simp only [validateEmbeddings]
    split_ifs <;> simp
  · simp only [validateEmbeddings]
    split_ifs with h1 h2 h3 h4 <;>
      (simp_all [List.length_pos, List.filter_eq_nil_iff, List.length_eq_zero]
       try assumption)

/-! ## Sorting and mapping lemmas for the exact search -/

theorem mem_insertDesc {key : α → ℚ} {x a : α} :
    ∀ {l : List α}, a ∈ insertDesc key x l ↔ a = x ∨ a ∈ l := by
  intro l
  induction l with
  | nil => simp [insertDesc]
  | cons y ys ih =>
    by_cases h : key y ≤ key x
    · simp [insertDesc, h]
    · simp [insertDesc, h, ih]
      tauto

theorem sortedDesc_insertDesc {key : α → ℚ} {x : α} :
    ∀ {l : List α}, SortedDesc key l → SortedDesc key (insertDesc key x l) := by
  intro l
  induction l with
  | nil => intro _; simp [insertDesc, SortedDesc]
  | cons y ys ih =>
    intro hs
    unfold SortedDesc at hs
    rw [List.pairwise_cons] at hs
    obtain ⟨hy, hys⟩ := hs
    by_cases h : key y ≤ key x
    · unfold SortedDesc
      rw [insertDesc, if_pos h, List.pairwise_cons]
      refine ⟨?_, ?_⟩
      · intro b hb
        rcases List.mem_cons.mp hb with rfl | hb
        · exact h
        · exact le_trans (hy b hb) h
      · exact List.pairwise_cons.mpr ⟨hy, hys⟩
    · unfold SortedDesc
      rw [insertDesc, if_neg h, List.pairwise_cons]
      refine ⟨?_, ih hys⟩
      intro b hb
      rcases mem_insertDesc.mp hb with rfl | hb
      · exact le_of_lt (lt_of_not_le h)
      · exact hy b hb

theorem sortedDesc_sortDesc (key : α → ℚ) :
    ∀ l : List α, SortedDesc key (sortDesc key l) := by
  intro l
  induction l with
  | nil => simp [sortDesc, SortedDesc]
  | cons x xs ih => exact sortedDesc_insertDesc ih

theorem mem_sortDesc {key : α → ℚ} {a : α} :
    ∀ {l : List α}, a ∈ sortDesc key l ↔ a ∈ l := by
  intro l
  induction l with
  | nil => simp [sortDesc]
  | cons x xs ih => simp [sortDesc, mem_insertDesc, ih]

theorem sortedDesc_take {key : α → ℚ} {l : List α} (h : SortedDesc key l) (n : ℕ) :
    SortedDesc key (l.take n) :=
  List.Pairwise.sublist (List.take_sublist n l) h

/-- If every element maps to a success, the whole map succeeds and every
output comes from some input. -/
theorem exMapM_ok_of_forall {α β : Type} {f : α → Except String β} :
    ∀ {l : List α}, (∀ a ∈ l, ∃ b, f a = .ok b) →
      ∃ res, exMapM f l = .ok res ∧ ∀ b ∈ res, ∃ a ∈ l, f a = .ok b := by
  intro l
  induction l with
  | nil => exact fun _ => ⟨[], rfl, by simp⟩
  | cons a l ih =>
    intro h
    obtain ⟨b, hb⟩ := h a (List.mem_cons_self _ _)
    obtain ⟨res, hres, hmem⟩ := ih (fun x hx => h x (List.mem_cons_of_mem a hx))
    refine ⟨b :: res, by simp [exMapM, hb, hres, exBind_ok], ?_⟩
    intro b' hb'
    rcases List.mem_cons.mp hb' with rfl | hb'
    · exact ⟨a, (List.mem_cons_self _ _), hb⟩
    · obtain ⟨a', ha', hfa'⟩ := hmem b' hb'
      exact ⟨a', List.mem_cons_of_mem a ha', hfa'⟩

theorem exBind_error (e : String) (f : α → Except String β) :
    ((Except.error e : Except String α) >>= f) = Except.error e := rfl

theorem cosineSimilarity_ok {vecA vecB : List JsNum} {a b : List ℚ}
    (hlen : vecA.length = vecB.length)
    (ha : ratsOf vecA = some a) (hb : ratsOf vecB = some b) :
    ∃ s, cosineSimilarity vecA vecB = .ok s := by
  unfold cosineSimilarity
  rw [if_neg (by simp [hlen]), ha, hb]
  by_cases h : sumSq a = 0 ∨ sumSq b = 0
  · exact ⟨0, by simp [h]⟩
  · exact ⟨signedSq (dotProduct a b) / (sumSq a * sumSq b), by simp [h]⟩

theorem searchMapFn_ok_object {q : List JsNum} {o : JsObj} {r : SearchResult}
    (h : EmbeddingIndex.searchMapFn q o = .ok r) : r.object = o := by
  unfold EmbeddingIndex.searchMapFn at h
  cases he : EmbeddingIndex.embeddingOf o with
  | error e => simp [he, exBind_error] at h
  | ok emb =>
    simp only [he, exBind_ok] at h
    cases hc : cosineSimilarity q emb with
    | error e => simp [hc, exBind_error] at h
    | ok s =>
      simp only [hc, exBind_ok, Except.ok.injEq] at h
      rw [← h]

theorem searchMapFn_ok_of {q : List JsNum} {o : JsObj}
    (hq : ∃ qr, ratsOf q = some qr)
    (h : ∃ l, jsGet o "embedding" = some (.arrNum l) ∧ l.length = q.length ∧
        ∃ lr, ratsOf l = some lr) :
    ∃ r, EmbeddingIndex.searchMapFn q o = .ok r := by
  obtain ⟨qr, hqr⟩ := hq
  obtain ⟨l, hl, hlen, lr, hlr⟩ := h
  have hemb : EmbeddingIndex.embeddingOf o = .ok l := by
    simp [EmbeddingIndex.embeddingOf, hl]
  obtain ⟨s, hs⟩ := cosineSimilarity_ok hlen.symm hqr hlr
  exact ⟨⟨s, o⟩, by simp [EmbeddingIndex.searchMapFn, hemb, hs, exBind_ok]⟩

/-- C9, amended.  For every `EmbeddingIndex` state, query `q`, requested
`topK = k ≥ 1` and filter, *provided every object matching the filter
carries an embedding that is an array of finite numbers of the query's
length (and `q` itself is finite)*, the in-memory search succeeds and
returns at most `k` `{similarity, object}` pairs, each object satisfying
the conjunctive equality filter, ordered non-increasingly by similarity;
an empty index — or no matching object — yields `[]`, not an error.  The
proviso is forced by the counterexample `c9_counterexample`: the code
throws a dimension error when a matching embedding's length differs from
the query's. -/
theorem c9_search (st : EmbeddingIndex) (q : List JsNum) (k : ℕ) (filter : JsObj)
    (hk : 1 ≤ k)
    (hq : ∃ qr, ratsOf q = some qr)
    (hemb : ∀ o ∈ st.objects, matchesFilter filter o = true →
      ∃ l, jsGet o "embedding" = some (.arrNum l) ∧ l.length = q.length ∧
        ∃ lr, ratsOf l = some lr) :
    ∃ res, st.search q k filter = .ok res
      ∧ res.length ≤ k
      ∧ (∀ r ∈ res, matchesFilter filter r.object = true)
      ∧ SortedDesc SearchResult.similarity res
      ∧ (st.objects = [] → res = [])
      ∧ (st.objects.filter (fun o => matchesFilter filter o) = [] → res = []) := by
  have hcand : ∀ o ∈ st.objects.filter (fun o => matchesFilter filter o),
      ∃ r, EmbeddingIndex.searchMapFn q o = .ok r := by
    intro o ho
    obtain ⟨hmem, hmatch⟩ := List.mem_filter.mp ho
    exact searchMapFn_ok_of hq (hemb o hmem hmatch)
  obtain ⟨sims, hsims, hsrc⟩ := exMapM_ok_of_forall hcand
  have hk0 : k ≠ 0 := by omega
  refine ⟨(sortDesc SearchResult.similarity sims).take k, ?_, ?_, ?_, ?_, ?_, ?_⟩
  · simp [EmbeddingIndex.search, hsims, exBind_ok, hk0]
  · exact List.length_take_le k _
  · intro r hr
    have hr' : r ∈ sortDesc SearchResult.similarity sims := List.mem_of_mem_take hr
    have hr'' : r ∈ sims := mem_sortDesc.mp hr'
    obtain ⟨o, ho, hfo⟩ := hsrc r hr''
    obtain ⟨_, hmatch⟩ := List.mem_filter.mp ho
    rw [searchMapFn_ok_object hfo]
    exact hmatch
  · exact sortedDesc_take (sortedDesc_sortDesc _ _) k
  · intro hempty
    have hfil : st.objects.filter (fun o => matchesFilter filter o) = [] := by
      simp [hempty]
    rw [hfil] at hsims
    cases hsims
    simp [sortDesc]
  · intro hempty
    rw [hempty] at hsims
    cases hsims
    simp [sortDesc]

/-- C9, counterexample to the claim as stated.  A reachable index state
(constructed from one object with a 3-dimensional embedding) makes
`search` with a 1-dimensional query throw `"Vectors must have the same
length"` instead of returning a result list, so the unconditional claim
fails on the code. -/
theorem c9_counterexample :
    (EmbeddingIndex.fromInitial [objDim3]).bind
        (fun st => st.search [JsNum.rat 1] 3 [])
      = .error "Vectors must have the same length" := rfl

/-- C9, witness: `c9_search` instantiated at a singleton index and a
matching 1-dimensional query. -/
theorem c9_search_witness :
    ∃ res, EmbeddingIndex.search ⟨[objId1], ["id", "embedding"]⟩ [JsNum.rat 1] 1 [] = .ok res
      ∧ res.length ≤ 1
      ∧ (∀ r ∈ res, matchesFilter [] r.object = true)
      ∧ SortedDesc SearchResult.similarity res
      ∧ (([objId1] : List JsObj) = [] → res = [])
      ∧ (([objId1] : List JsObj).filter (fun o => matchesFilter [] o) = [] → res = []) :=
  c9_search ⟨[objId1], ["id", "embedding"]⟩ [JsNum.rat 1] 1 [] (by decide)
    ⟨[1], rfl⟩
    (by
      intro o ho hm
      simp only [List.mem_singleton] at ho
      subst ho
      exact ⟨[.rat 1], rfl, rfl, [1], rfl⟩)

/-! ## Validation and schema lemmas -/

theorem jsGet_some_mem_keys {k : String} {v : JsVal} :
    ∀ {o : JsObj}, jsGet o k = some v → k ∈ keysOf o := by
  intro o h
  induction o with
  | nil => cases h
  | cons q ps ih =>
    by_cases hqk : (q.1 == k) = true
    · have : q.1 = k := by simpa using hqk
      simp [keysOf, this]
    · have h' : jsGet ps k = some v := by
        simpa [JsObj.jsGet, List.find?, hqk] using h
      simp [keysOf]
      right
      simpa [keysOf] using ih h'

/-- Anatomy of a successful `validateAndAdd`: the object is appended, the
key schema is fixed or checked, and the validated embedding facts hold. -/
theorem validateAndAdd_ok_spec {st st' : EmbeddingIndex} {obj : JsObj}
    (h : EmbeddingIndex.validateAndAdd st obj = .ok st') :
    st'.objects = st.objects ++ [obj]
    ∧ st'.keys ≠ []
    ∧ (st.keys = [] → st'.keys = keysOf obj)
    ∧ (st.keys ≠ [] → st'.keys = st.keys)
    ∧ (st.keys ≠ [] → ∀ k ∈ st.keys, k ∈ keysOf obj)
    ∧ (∃ l, jsGet obj "embedding" = some (.arrNum l) ∧ l.any JsNum.isNaNb = false) := by
  unfold EmbeddingIndex.validateAndAdd at h
  split at h
  case h_2 => cases h
  case h_1 emb heq =>
    by_cases hnan : (emb.any JsNum.isNaNb) = true
    · rw [if_pos hnan] at h
      cases h
    · rw [if_neg hnan] at h
      have hkmem : "embedding" ∈ keysOf obj := jsGet_some_mem_keys heq
      by_cases hker : st.keys.isEmpty = true
      · rw [if_pos hker] at h
        cases h
        refine ⟨rfl, ?_, fun _ => rfl, ?_, ?_,
          ⟨emb, heq, by simpa using hnan⟩⟩
        · intro hnil
          simp only at hnil
          rw [hnil] at hkmem
          cases hkmem
        · intro hne
          exact absurd (List.isEmpty_iff.mp hker) hne
        · intro hne
          exact absurd (List.isEmpty_iff.mp hker) hne
      · rw [if_neg hker] at h
        by_cases hall : (st.keys.all (fun k => decide (k ∈ keysOf obj))) = true
        · rw [if_pos hall] at h
          cases h
          refine ⟨rfl, ?_, ?_, fun _ => rfl, ?_,
            ⟨emb, heq, by simpa using hnan⟩⟩
          · intro hnil
            try simp only at hnil
            exact hker (by simp [hnil])
          · intro hnil
            try simp only at hnil
            exact absurd (by simp [hnil]) hker
          · intro _ k hk
            simpa using List.all_eq_true.mp hall k hk
        · rw [if_neg hall] at h
          cases h

theorem update_ok_spec {st st' : EmbeddingIndex} {filter vector : JsObj}
    (h : EmbeddingIndex.update st filter vector = .ok st') :
    ∃ i st'', EmbeddingIndex.validateAndAdd st vector = .ok st''
      ∧ st' = ⟨st''.objects.set i vector, st''.keys⟩ := by
  unfold EmbeddingIndex.update at h
  split at h
  · cases h
  case h_2 i _ =>
    cases hva : EmbeddingIndex.validateAndAdd st vector with
    | error e => rw [hva, exBind_error] at h; cases h
    | ok st'' =>
      rw [hva, exBind_ok] at h
      cases h
      exact ⟨i, st'', rfl, rfl⟩

theorem remove_ok_spec {st st' : EmbeddingIndex} {filter : JsObj}
    (h : EmbeddingIndex.remove st filter = .ok st') :
    ∃ i, st' = ⟨st.objects.eraseIdx i, st.keys⟩ := by
  unfold EmbeddingIndex.remove at h
  split at h
  · cases h
  case h_2 i _ =>
    cases h
    exact ⟨i, rfl⟩

theorem removeBatch_spec :
    ∀ (filters : List JsObj) (st : EmbeddingIndex),
      (EmbeddingIndex.removeBatch st filters).keys = st.keys
      ∧ ∀ o ∈ (EmbeddingIndex.removeBatch st filters).objects, o ∈ st.objects := by
  intro filters
  induction filters with
  | nil => exact fun st => ⟨rfl, fun o ho => ho⟩
  | cons f fs ih =>
    intro st
    rw [show EmbeddingIndex.removeBatch st (f :: fs)
        = EmbeddingIndex.removeBatch
            (match EmbeddingIndex.findVectorIndex st f with
             | none => st
             | some i => ⟨st.objects.eraseIdx i, st.keys⟩) fs from rfl]
    cases hf : EmbeddingIndex.findVectorIndex st f with
    | none =>
      simp only [hf]
      exact ih st
    | some i =>
      simp only [hf]
      obtain ⟨hk, hm⟩ := ih ⟨st.objects.eraseIdx i, st.keys⟩
      exact ⟨hk, fun o ho => List.eraseIdx_subset _ _ (hm o ho)⟩

/-- The key-schema invariant: every stored object's key set contains the
index's fixed key set, and the key set is nonempty once anything is
stored. -/
def KeySchemaInv (st : EmbeddingIndex) : Prop :=
  (∀ o ∈ st.objects, ∀ k ∈ st.keys, k ∈ keysOf o)
  ∧ (st.objects = [] ∨ st.keys ≠ [])

theorem validateAndAdd_keyschema {st st' : EmbeddingIndex} {obj : JsObj}
    (h : EmbeddingIndex.validateAndAdd st obj = .ok st')
    (hinv : KeySchemaInv st) : KeySchemaInv st' := by
  obtain ⟨hobj, hkne, hkeq, hkkeep, hksub, _⟩ := validateAndAdd_ok_spec h
  by_cases hk : st.keys = []
  · have hobjnil : st.objects = [] := by
      rcases hinv.2 with h' | h'
      · exact h'
      · exact absurd hk h'
    constructor
    · intro o ho k hkk
      rw [hobj, hobjnil] at ho
      simp at ho
      subst ho
      rw [hkeq hk] at hkk
      exact hkk
    · right
      exact hkne
  · constructor
    · intro o ho k hkk
      rw [hobj] at ho
      rw [hkkeep hk] at hkk
      rcases List.mem_append.mp ho with ho | ho
      · exact hinv.1 o ho k hkk
      · simp at ho
        subst ho
        exact hksub hk k hkk
    · right
      exact hkne

theorem applyOp_keyschema {st st' : EmbeddingIndex} {op : EmbeddingIndex.Op}
    (h : EmbeddingIndex.applyOp st op = .ok st')
    (hinv : KeySchemaInv st) : KeySchemaInv st' := by
  cases op with
  | add obj => exact validateAndAdd_keyschema h hinv
  | update filter vector =>
    obtain ⟨i, st'', hva, rfl⟩ := update_ok_spec h
    have hinv'' := validateAndAdd_keyschema hva hinv
    have spec := validateAndAdd_ok_spec hva
    constructor
    · intro o ho k hk
      rcases List.mem_or_eq_of_mem_set ho with ho' | rfl
      · exact hinv''.1 o ho' k hk
      · refine hinv''.1 o ?_ k hk
        rw [spec.1]
        simp
    · right
      exact spec.2.1
  | remove filter =>
    obtain ⟨i, rfl⟩ := remove_ok_spec h
    constructor
    · intro o ho k hk
      exact hinv.1 o (List.eraseIdx_subset _ _ ho) k hk
    · rcases hinv.2 with h' | h'
      · left
        simp [h']
      · right
        exact h'
  | removeBatch filters =>
    have hst : st' = EmbeddingIndex.removeBatch st filters := by
      have : EmbeddingIndex.applyOp st (.removeBatch filters)
          = .ok (EmbeddingIndex.removeBatch st filters) := rfl
      rw [this] at h
      cases h
      rfl
    subst hst
    obtain ⟨hk, hm⟩ := removeBatch_spec filters st
    constructor
    · intro o ho k hkk
      rw [hk] at hkk
      exact hinv.1 o (hm o ho) k hkk
    · rcases hinv.2 with h' | h'
      · left
        have := hm
        rw [h'] at this
        cases hobj : (EmbeddingIndex.removeBatch st filters).objects with
        | nil => rfl
        | cons x xs =>
          exact absurd (this x (by rw [hobj]; simp)) (by simp)
      · right
        rw [hk]
        exact h'
  | clear =>
    cases h
    exact ⟨fun o ho => absurd ho (by simp [EmbeddingIndex.clear]), Or.inl rfl⟩

theorem addAll_keyschema :
    ∀ {os : List JsObj} {st st' : EmbeddingIndex},
      EmbeddingIndex.addAll st os = .ok st' → KeySchemaInv st →
      KeySchemaInv st' ∧ (st.keys ≠ [] → st'.keys = st.keys) := by
  intro os
  induction os with
  | nil =>
    intro st st' h hinv
    cases h
    exact ⟨hinv, fun _ => rfl⟩
  | cons o os ih =>
    intro st st' h hinv
    rw [show EmbeddingIndex.addAll st (o :: os)
        = (EmbeddingIndex.validateAndAdd st o >>= fun st1 =>
            EmbeddingIndex.addAll st1 os) from rfl] at h
    cases hva : EmbeddingIndex.validateAndAdd st o with
    | error e => rw [hva, exBind_error] at h; cases h
    | ok st1 =>
      rw [hva, exBind_ok] at h
      have spec := validateAndAdd_ok_spec hva
      obtain ⟨hinv', hkeep⟩ := ih h (validateAndAdd_keyschema hva hinv)
      refine ⟨hinv', fun hne => ?_⟩
      rw [hkeep spec.2.1, spec.2.2.2.1 hne]

theorem fromInitial_keyschema {objs : List JsObj} {st : EmbeddingIndex}
    (h : EmbeddingIndex.fromInitial objs = .ok st) : KeySchemaInv st := by
  unfold EmbeddingIndex.fromInitial at h
  by_cases hnil : objs.isEmpty = true
  · rw [if_pos hnil] at h
    cases h
    exact ⟨fun o ho => absurd ho (by simp), Or.inl rfl⟩
  · rw [if_neg hnil] at h
    cases objs with
    | nil => simp at hnil
    | cons o os =>
      rw [show EmbeddingIndex.addAll ⟨[], []⟩ (o :: os)
          = (EmbeddingIndex.validateAndAdd ⟨[], []⟩ o >>= fun st1 =>
              EmbeddingIndex.addAll st1 os) from rfl] at h
      cases hva : EmbeddingIndex.validateAndAdd ⟨[], []⟩ o with
      | error e => rw [hva, exBind_error, exBind_error] at h; cases h
      | ok st1 =>
        rw [hva, exBind_ok] at h
        cases hall : EmbeddingIndex.addAll st1 os with
        | error e => rw [hall, exBind_error] at h; cases h
        | ok st2 =>
          rw [hall, exBind_ok] at h
          simp only [List.head?_cons] at h
          have spec1 := validateAndAdd_ok_spec hva
          have hinv1 : KeySchemaInv st1 :=
            validateAndAdd_keyschema hva ⟨fun x hx => absurd hx (by simp), Or.inl rfl⟩
          obtain ⟨hinv2, hkeep2⟩ := addAll_keyschema hall hinv1
          have hk1 : st1.keys = keysOf o := spec1.2.2.1 rfl
          have hk2 : st2.keys = keysOf o := by rw [hkeep2 spec1.2.1, hk1]
          cases h
          constructor
          · intro x hx k hk
            refine hinv2.1 x hx k ?_
            rw [hk2]
            exact hk
          · right
            rw [← hk2]
            exact (hkeep2 spec1.2.1) ▸ spec1.2.1

theorem validateAndAdd_missing_key {st : EmbeddingIndex} {obj : JsObj} {l : List JsNum}
    (hemb : jsGet obj "embedding" = some (.arrNum l))
    (hnan : l.any JsNum.isNaNb = false)
    (hk : st.keys ≠ [])
    (hmiss : ∃ k ∈ st.keys, k ∉ keysOf obj) :
    EmbeddingIndex.validateAndAdd st obj
      = .error "Object must have the same properties as the initial objects" := by
  have hcond : ¬((st.keys.all fun k => decide (k ∈ keysOf obj)) = true) := by
    intro hall
    obtain ⟨k, hkmem, hknot⟩ := hmiss
    exact hknot (by simpa using List.all_eq_true.mp hall k hkmem)
  unfold EmbeddingIndex.validateAndAdd
  simp only [hemb]
  rw [if_neg (by simp [hnan]), if_neg (by simp [hk]), if_neg hcond]

theorem validateAndAdd_nan {st : EmbeddingIndex} {obj : JsObj} {l : List JsNum}
    (hemb : jsGet obj "embedding" = some (.arrNum l))
    (hnan : l.any JsNum.isNaNb = true) :
    EmbeddingIndex.validateAndAdd st obj
      = .error "Object must have an embedding property of type number[]" := by
  unfold EmbeddingIndex.validateAndAdd
  simp only [hemb]
  rw [if_pos (by simp [hnan])]

theorem validateAndAdd_not_array {st : EmbeddingIndex} {obj : JsObj}
    (hemb : ∀ l, jsGet obj "embedding" ≠ some (.arrNum l)) :
    EmbeddingIndex.validateAndAdd st obj
      = .error "Object must have an embedding property of type number[]" := by
  unfold EmbeddingIndex.validateAndAdd
  split
  case h_1 emb heq => exact absurd heq (hemb emb)
  case h_2 => rfl

/-- C4, counterexample to the claim as stated: an object whose key set
*strictly contains* the fixed key set (`{id, embedding, extra}` vs
`{id, embedding}`) is *accepted* by `add`/`validateAndAdd` — the code only
checks `this.keys.every((key) => key in obj)` — so two stored objects can
have different key sets. -/
theorem c4_counterexample :
    (EmbeddingIndex.fromInitial [objId1]).bind (fun st => st.add objExtraKey)
      = .ok ⟨[objId1, objExtraKey], ["id", "embedding"]⟩
    ∧ keysOf objExtraKey ≠ keysOf objId1 := ⟨rfl, by decide⟩

/-- C4, amended.  Every mutating operation and the constructor preserve
the invariant that each stored object's key set *contains* the fixed key
set (identity of key sets is not enforced: extra keys pass, see
`c4_counterexample`); and inserting an object that lacks one of the fixed
keys (with an otherwise valid embedding) is rejected with the schema
error. -/
theorem c4_key_schema :
    (∀ (st : EmbeddingIndex) (op : EmbeddingIndex.Op) (st' : EmbeddingIndex),
      EmbeddingIndex.applyOp st op = .ok st' → KeySchemaInv st → KeySchemaInv st')
    ∧ (∀ (objs : List JsObj) (st : EmbeddingIndex),
      EmbeddingIndex.fromInitial objs = .ok st → KeySchemaInv st)
    ∧ (∀ (st : EmbeddingIndex) (obj : JsObj) (l : List JsNum),
      jsGet obj "embedding" = some (.arrNum l) → l.any JsNum.isNaNb = false →
      st.keys ≠ [] → (∃ k ∈ st.keys, k ∉ keysOf obj) →
      EmbeddingIndex.validateAndAdd st obj
        = .error "Object must have the same properties as the initial objects") :=
  ⟨fun _ _ _ h hinv => applyOp_keyschema h hinv,
   fun _ _ h => fromInitial_keyschema h,
   fun _ _ _ hemb hnan hk hmiss => validateAndAdd_missing_key hemb hnan hk hmiss⟩

/-- C4, witness: the preservation part of `c4_key_schema` applied to
`add`-ing `objExtraKey` to the singleton index holding `objId1`. -/
theorem c4_key_schema_witness :
    KeySchemaInv ⟨[objId1, objExtraKey], ["id", "embedding"]⟩ :=
  c4_key_schema.1 ⟨[objId1], ["id", "embedding"]⟩ (.add objExtraKey)
    ⟨[objId1, objExtraKey], ["id", "embedding"]⟩ rfl
    ⟨fun o ho k hk => by
      simp only [List.mem_singleton] at ho
      subst ho
      simpa [keysOf, objId1] using hk,
     Or.inr (by simp)⟩

/-- The embedding-shape invariant actually maintained by the code: every
stored object's `embedding` is an array with no `NaN` entry (`isNaN` is
the only value check `validateAndAdd` performs). -/
def EmbeddingShapeInv (st : EmbeddingIndex) : Prop :=
  ∀ o ∈ st.objects, ∃ l, jsGet o "embedding" = some (.arrNum l)
    ∧ l.any JsNum.isNaNb = false

theorem validateAndAdd_shape {st st' : EmbeddingIndex} {obj : JsObj}
    (h : EmbeddingIndex.validateAndAdd st obj = .ok st')
    (hinv : EmbeddingShapeInv st) : EmbeddingShapeInv st' := by
  obtain ⟨hobj, _, _, _, _, hsh⟩ := validateAndAdd_ok_spec h
  intro o ho
  rw [hobj] at ho
  rcases List.mem_append.mp ho with ho | ho
  · exact hinv o ho
  · simp at ho
    subst ho
    exact hsh

theorem applyOp_shape {st st' : EmbeddingIndex} {op : EmbeddingIndex.Op}
    (h : EmbeddingIndex.applyOp st op = .ok st')
    (hinv : EmbeddingShapeInv st) : EmbeddingShapeInv st' := by
  cases op with
  | add obj => exact validateAndAdd_shape h hinv
  | update filter vector =>
    obtain ⟨i, st'', hva, rfl⟩ := update_ok_spec h
    have hinv'' := validateAndAdd_shape hva hinv
    have spec := validateAndAdd_ok_spec hva
    intro o ho
    rcases List.mem_or_eq_of_mem_set ho with ho' | rfl
    · exact hinv'' o ho'
    · refine hinv'' o ?_
      rw [spec.1]
      simp
  | remove filter =>
    obtain ⟨i, rfl⟩ := remove_ok_spec h
    intro o ho
    exact hinv o (List.eraseIdx_subset _ _ ho)
  | removeBatch filters =>
    have hst : st' = EmbeddingIndex.removeBatch st filters := by
      have heq : EmbeddingIndex.applyOp st (.removeBatch filters)
          = .ok (EmbeddingIndex.removeBatch st filters) := rfl
      rw [heq] at h
      cases h
      rfl
    subst hst
    obtain ⟨_, hm⟩ := removeBatch_spec filters st
    intro o ho
    exact hinv o (hm o ho)
  | clear =>
    cases h
    intro o ho
    exact absurd ho (by simp [EmbeddingIndex.clear])

theorem addAll_shape :
    ∀ {os : List JsObj} {st st' : EmbeddingIndex},
      EmbeddingIndex.addAll st os = .ok st' → EmbeddingShapeInv st →
      EmbeddingShapeInv st' := by
  intro os
  induction os with
  | nil =>
    intro st st' h hinv
    cases h
    exact hinv
  | cons o os ih =>
    intro st st' h hinv
    rw [show EmbeddingIndex.addAll st (o :: os)
        = (EmbeddingIndex.validateAndAdd st o >>= fun st1 =>
            EmbeddingIndex.addAll st1 os) from rfl] at h
    cases hva : EmbeddingIndex.validateAndAdd st o with
    | error e => rw [hva, exBind_error] at h; cases h
    | ok st1 =>
      rw [hva, exBind_ok] at h
      exact ih h (validateAndAdd_shape hva hinv)

theorem fromInitial_shape {objs : List JsObj} {st : EmbeddingIndex}
    (h : EmbeddingIndex.fromInitial objs = .ok st) : EmbeddingShapeInv st := by
  unfold EmbeddingIndex.fromInitial at h
  by_cases hnil : objs.isEmpty = true
  · rw [if_pos hnil] at h
    cases h
    exact fun o ho => absurd ho (by simp)
  · rw [if_neg hnil] at h
    cases hall : EmbeddingIndex.addAll ⟨[], []⟩ objs with
    | error e => rw [hall, exBind_error] at h; cases h
    | ok st2 =>
      rw [hall, exBind_ok] at h
      have hinv2 : EmbeddingShapeInv st2 :=
        addAll_shape hall (fun o ho => absurd ho (by simp))
      cases objs with
      | nil => simp at hnil
      | cons o os =>
        simp only [List.head?_cons] at h
        cases h
        intro x hx
        exact hinv2 x hx

/-- C5, counterexample to the claim as stated: after fixing dimension 3
(first object `{id: "d", embedding: [1, 2, 3]}`), the object
`{id: "c", embedding: [Infinity]}` — wrong length *and* non-finite — is
accepted by `add`: `validateAndAdd` checks only `Array.isArray` and
`some(isNaN)`, and `isNaN(Infinity)` is `false`. -/
theorem c5_counterexample :
    (EmbeddingIndex.fromInitial [objDim3]).bind (fun st => st.add objInf)
      = .ok ⟨[objDim3, objInf], ["id", "embedding"]⟩
    ∧ jsGet objInf "embedding" = some (.arrNum [.inf])
    ∧ ([JsNum.inf].length ≠ (3 : ℕ))
    ∧ [JsNum.inf].any (fun v => !v.isFiniteb) = true := by
  refine ⟨rfl, rfl, by decide, rfl⟩

/-- C5, amended.  What insertion actually validates: the embedding must be
an array free of `NaN` entries — a missing/non-array embedding or a `NaN`
entry is rejected with the descriptive error — and every operation
preserves the invariant that stored embeddings are `NaN`-free arrays.
Neither the index dimension `D` nor finiteness (`±Infinity`) is checked at
insertion (see `c5_counterexample`); a length mismatch only surfaces later
as a dimension error during similarity comparison. -/
theorem c5_embedding_validation :
    (∀ (st : EmbeddingIndex) (op : EmbeddingIndex.Op) (st' : EmbeddingIndex),
      EmbeddingIndex.applyOp st op = .ok st' →
      EmbeddingShapeInv st → EmbeddingShapeInv st')
    ∧ (∀ (objs : List JsObj) (st : EmbeddingIndex),
      EmbeddingIndex.fromInitial objs = .ok st → EmbeddingShapeInv st)
    ∧ (∀ (st : EmbeddingIndex) (obj : JsObj) (l : List JsNum),
      jsGet obj "embedding" = some (.arrNum l) → l.any JsNum.isNaNb = true →
      EmbeddingIndex.validateAndAdd st obj
        = .error "Object must have an embedding property of type number[]")
    ∧ (∀ (st : EmbeddingIndex) (obj : JsObj),
      (∀ l, jsGet obj "embedding" ≠ some (.arrNum l)) →
      EmbeddingIndex.validateAndAdd st obj
        = .error "Object must have an embedding property of type number[]") :=
  ⟨fun _ _ _ h hinv => applyOp_shape h hinv,
   fun _ _ h => fromInitial_shape h,
   fun _ _ _ hemb hnan => validateAndAdd_nan hemb hnan,
   fun _ _ hemb => validateAndAdd_not_array hemb⟩

/-- C5, witness: the preservation part of `c5_embedding_validation`
applied to `add`-ing `objInf` to the singleton index holding `objDim3`. -/
theorem c5_embedding_validation_witness :
    EmbeddingShapeInv ⟨[objDim3, objInf], ["id", "embedding"]⟩ :=
  c5_embedding_validation.1 ⟨[objDim3], ["id", "embedding"]⟩ (.add objInf)
    ⟨[objDim3, objInf], ["id", "embedding"]⟩ rfl
    (fun o ho => by
      simp only [List.mem_singleton] at ho
      subst ho
      exact ⟨[.rat 1, .rat 2, .rat 3], rfl, rfl⟩)

/-! ## Pipeline lemmas -/

theorem flatten_map_map {α β : Type} (f : α → β) :
    ∀ L : List (List α), (L.map (List.map f)).flatten = L.flatten.map f := by
  intro L
  induction L with
  | nil => rfl
  | cons l ls ih =>
    rw [List.map_cons, List.flatten_cons, List.flatten_cons, List.map_append, ih]

theorem chunkBatches_flatten {B : ℕ} (hB : 0 < B) :
    ∀ {fuel : ℕ} {l : List DocChunk}, l.length ≤ fuel →
      (chunkBatches fuel l B).flatten = l := by
  intro fuel
  induction fuel with
  | zero =>
    intro l hl
    have : l = [] := List.length_eq_zero.mp (Nat.le_zero.mp hl)
    subst this
    rfl
  | succ fuel ih =>
    intro l hl
    cases l with
    | nil => rfl
    | cons x xs =>
      rw [show chunkBatches (fuel + 1) (x :: xs) B
          = (x :: xs).take B :: chunkBatches fuel ((x :: xs).drop B) B from rfl]
      rw [List.flatten_cons]
      have hlen : ((x :: xs).drop B).length ≤ fuel := by
        rw [List.length_drop]
        simp only [List.length_cons] at hl ⊢
        omega
      rw [ih hlen]
      exact List.take_append_drop B (x :: xs)

theorem range'_cons (a n : ℕ) : List.range' a (n + 1) = a :: List.range' (a + 1) n := rfl

theorem retryFrom_all_fail (oracle : EmbedOracle) (R d : ℕ) (c : DocChunk)
    (hfail : ∀ t e, 1 ≤ t → t ≤ R → oracle c.content t = some e → e = []) :
    ∀ (rem a : ℕ) (delays : List ℕ), 1 ≤ a → a + rem = R + 1 →
      retryFrom oracle R d c a rem delays
        = (List.replicate 384 (JsNum.rat 0),
           delays ++ (List.range' a (R - a)).map (fun t => d * t)) := by
  intro rem
  induction rem with
  | zero =>
    intro a delays _ ha
    have haR : a = R + 1 := by omega
    subst haR
    have h0 : R - (R + 1) = 0 := by omega
    rw [h0]
    simp only [List.range'_zero, List.map_nil, List.append_nil]
    rfl
  | succ rem ih =>
    intro a delays h1 ha
    have haR : a ≤ R := by omega
    have hstep : retryFrom oracle R d c a (rem + 1) delays
        = (match oracle c.content a with
           | some e =>
             if 0 < e.length then (e, delays)
             else retryFrom oracle R d c (a + 1) rem
               (if a < R then delays ++ [d * a] else delays)
           | none => retryFrom oracle R d c (a + 1) rem
               (if a < R then delays ++ [d * a] else delays)) := rfl
    by_cases hlt : a < R
    · have hrec : retryFrom oracle R d c (a + 1) rem (delays ++ [d * a])
          = (List.replicate 384 (JsNum.rat 0),
             (delays ++ [d * a])
               ++ (List.range' (a + 1) (R - (a + 1))).map (fun t => d * t)) :=
        ih (a + 1) (delays ++ [d * a]) (by omega) (by omega)
      have hr : List.range' a (R - a) = a :: List.range' (a + 1) (R - (a + 1)) := by
        rw [show R - a = (R - (a + 1)) + 1 from by omega, range'_cons]
      rw [hstep]
      cases horacle : oracle c.content a with
      | some e =>
        have he : e = [] := hfail a e h1 haR horacle
        subst he
        simp only [horacle, List.length_nil, Nat.lt_irrefl, if_false, if_pos hlt]
        rw [hrec, hr, List.map_cons, List.append_assoc]
        rfl
      | none =>
        simp only [horacle, if_pos hlt]
        rw [hrec, hr, List.map_cons, List.append_assoc]
        rfl
    · have hrem : rem = 0 := by omega
      subst hrem
      have hterm : retryFrom oracle R d c (a + 1) 0 delays
          = (List.replicate 384 (JsNum.rat 0), delays) := rfl
      have h0 : R - a = 0 := by omega
      rw [hstep]
      cases horacle : oracle c.content a with
      | some e =>
        have he : e = [] := hfail a e h1 haR horacle
        subst he
        simp only [horacle, List.length_nil, Nat.lt_irrefl, if_false, if_neg hlt]
        rw [hterm, h0]
        simp only [List.range'_zero, List.map_nil, List.append_nil]
      | none =>
        simp only [horacle, if_neg hlt]
        rw [hterm, h0]
        simp only [List.range'_zero, List.map_nil, List.append_nil]

theorem retryFrom_first_success (oracle : EmbedOracle) (R d : ℕ) (c : DocChunk)
    (s : ℕ) (es : List JsNum)
    (hsR : s ≤ R) (hs : oracle c.content s = some es) (hne : 0 < es.length)
    (hfirst : ∀ t e, 1 ≤ t → t < s → oracle c.content t = some e → e = []) :
    ∀ (rem a : ℕ) (delays : List ℕ), 1 ≤ a → a ≤ s → a + rem = R + 1 →
      retryFrom oracle R d c a rem delays
        = (es, delays ++ (List.range' a (s - a)).map (fun t => d * t)) := by
  intro rem
  induction rem with
  | zero =>
    intro a delays _ has ha
    omega
  | succ rem ih =>
    intro a delays h1 has ha
    have hstep : retryFrom oracle R d c a (rem + 1) delays
        = (match oracle c.content a with
           | some e =>
             if 0 < e.length then (e, delays)
             else retryFrom oracle R d c (a + 1) rem
               (if a < R then delays ++ [d * a] else delays)
           | none => retryFrom oracle R d c (a + 1) rem
               (if a < R then delays ++ [d * a] else delays)) := rfl
    by_cases heq : a = s
    · subst heq
      have h0 : a - a = 0 := by omega
      rw [hstep]
      simp only [hs, if_pos hne, h0]
      simp only [List.range'_zero, List.map_nil, List.append_nil]
    · have hlt : a < s := by omega
      have hltR : a < R := by omega
      have hr : List.range' a (s - a) = a :: List.range' (a + 1) (s - (a + 1)) := by
        rw [show s - a = (s - (a + 1)) + 1 from by omega, range'_cons]
      have hrec : retryFrom oracle R d c (a + 1) rem (delays ++ [d * a])
          = (es, (delays ++ [d * a])
              ++ (List.range' (a + 1) (s - (a + 1))).map (fun t => d * t)) :=
        ih (a + 1) (delays ++ [d * a]) (by omega) (by omega) (by omega)
      rw [hstep]
      cases horacle : oracle c.content a with
      | some e =>
        have he : e = [] := hfirst a e h1 hlt horacle
        subst he
        simp only [horacle, List.length_nil, Nat.lt_irrefl, if_false, if_pos hltR]
        rw [hrec, hr, List.map_cons, List.append_assoc]
        rfl
      | none =>
        simp only [horacle, if_pos hltR]
        rw [hrec, hr, List.map_cons, List.append_assoc]
        rfl

theorem foldl_append_chunks :
    ∀ (documents : List ProcessedDoc) (acc : List DocChunk),
      documents.foldl (fun acc doc => acc ++ doc.chunks) acc
        = acc ++ (documents.map ProcessedDoc.chunks).flatten := by
  intro documents
  induction documents with
  | nil => intro acc; simp
  | cons doc docs ih =>
    intro acc
    rw [List.foldl_cons, ih, List.map_cons, List.flatten_cons, List.append_assoc]

/-- C8.  The batch pipeline never aborts and aligns outputs 1:1 with
inputs: for any oracle behaviour, batch size `B ≥ 1`, retry budget `R` and
base delay `d`, (i) the returned chunk list is the flattened input, (ii)
the embeddings list is exactly the per-chunk retry result, in input order
— batching is transparent; (iii) a chunk whose every attempt `1..R` fails
(rejects or returns an empty vector) gets the sentinel zero-vector of
length 384 after waiting `d·1, d·2, …, d·(R-1)` (linear backoff between
attempts); (iv) a chunk that first succeeds at attempt `s ≤ R` returns
that vector after backoff `d·1, …, d·(s-1)`; (v)
`generateEmbeddings([])` is `{chunks: [], embeddings: []}`. -/
theorem c8_pipeline (oracle : EmbedOracle) (B R d : ℕ)
    (documents : List ProcessedDoc) (hB : 0 < B) :
    ((generateEmbeddings oracle B R d documents).chunks
        = (documents.map ProcessedDoc.chunks).flatten)
    ∧ ((generateEmbeddings oracle B R d documents).embeddings
        = ((documents.map ProcessedDoc.chunks).flatten).map
            (fun c => (generateEmbeddingWithRetry oracle R d c).1))
    ∧ (∀ c : DocChunk,
        (∀ t e, 1 ≤ t → t ≤ R → oracle c.content t = some e → e = []) →
        generateEmbeddingWithRetry oracle R d c
          = (List.replicate 384 (JsNum.rat 0),
             (List.range' 1 (R - 1)).map (fun t => d * t)))
    ∧ (∀ (c : DocChunk) (s : ℕ) (es : List JsNum),
        1 ≤ s → s ≤ R → oracle c.content s = some es → 0 < es.length →
        (∀ t e, 1 ≤ t → t < s → oracle c.content t = some e → e = []) →
        generateEmbeddingWithRetry oracle R d c
          = (es, (List.range' 1 (s - 1)).map (fun t => d * t)))
    ∧ generateEmbeddings oracle B R d [] = ⟨[], []⟩ := by
  have hchunks : (generateEmbeddings oracle B R d documents).chunks
      = (documents.map ProcessedDoc.chunks).flatten := by
    show documents.foldl (fun acc doc => acc ++ doc.chunks) []
        = (documents.map ProcessedDoc.chunks).flatten
    rw [foldl_append_chunks]
    rw [List.nil_append]
  refine ⟨hchunks, ?_, ?_, ?_, rfl⟩
  · show ((chunkBatches
        (documents.foldl (fun acc doc => acc ++ doc.chunks) []).length
        (documents.foldl (fun acc doc => acc ++ doc.chunks) []) B).map
          (fun b => (processBatch oracle R d b).1)).flatten = _
    have hpb : ∀ b : List DocChunk, (processBatch oracle R d b).1
        = b.map (fun c => (generateEmbeddingWithRetry oracle R d c).1) := fun b => rfl
    calc ((chunkBatches
            (documents.foldl (fun acc doc => acc ++ doc.chunks) []).length
            (documents.foldl (fun acc doc => acc ++ doc.chunks) []) B).map
              (fun b => (processBatch oracle R d b).1)).flatten
        = ((chunkBatches
            (documents.foldl (fun acc doc => acc ++ doc.chunks) []).length
            (documents.foldl (fun acc doc => acc ++ doc.chunks) []) B).map
              (List.map (fun c => (generateEmbeddingWithRetry oracle R d c).1))).flatten := by
          simp only [hpb]
      _ = ((chunkBatches
            (documents.foldl (fun acc doc => acc ++ doc.chunks) []).length
            (documents.foldl (fun acc doc => acc ++ doc.chunks) []) B).flatten).map
              (fun c => (generateEmbeddingWithRetry oracle R d c).1) :=
          flatten_map_map _ _
      _ = (documents.foldl (fun acc doc => acc ++ doc.chunks) []).map
              (fun c => (generateEmbeddingWithRetry oracle R d c).1) := by
          rw [chunkBatches_flatten hB (le_refl _)]
      _ = _ := by
          rw [foldl_append_chunks, List.nil_append]
  · intro c hfail
    have h := retryFrom_all_fail oracle R d c hfail R 1 [] (le_refl 1) (by omega)
    rw [generateEmbeddingWithRetry, h]
    simp only [List.nil_append]
  · intro c s es h1 hsR hs hne hfirst
    have h := retryFrom_first_success oracle R d c s es hsR hs hne hfirst
        R 1 [] (le_refl 1) h1 (by omega)
    rw [generateEmbeddingWithRetry, h]
    simp only [List.nil_append]

/-- A concrete oracle for the witness: every first attempt rejects, every
second attempt resolves to `[5]`. -/
def oracleW : EmbedOracle := fun _ t => if t = 2 then some [JsNum.rat 5] else none

/-- A concrete two-chunk document for the witness. -/
def docsW : List ProcessedDoc := [⟨[⟨"c1", "t1"⟩, ⟨"c2", "t2"⟩]⟩]

/-- C8, witness: the alignment part of `c8_pipeline` at batch size 1,
three retries and the concrete oracle. -/
theorem c8_pipeline_witness :
    (generateEmbeddings oracleW 1 3 1000 docsW).embeddings
      = ((docsW.map ProcessedDoc.chunks).flatten).map
          (fun c => (generateEmbeddingWithRetry oracleW 3 1000 c).1) :=
  (c8_pipeline oracleW 1 3 1000 docsW (by decide)).2.1
